import Mathlib

/-!
Verification development for the 10Knodes hierarchy viewer.

The JavaScript source is shallowly embedded: a JS object used as a map is a
list of entries in insertion order with unique keys, a JS Set is an
insertion-ordered duplicate-free list of strings, machine numbers that stay
integral are Nat/Int, Array.prototype.sort is a stable sort by the given
comparator, and the two traversals that the code runs as an unbounded
while-loop / unbounded recursion take an explicit fuel argument and return
none when the fuel runs out or where the JS code would have thrown
(property access on undefined).
-/

namespace TenK

/-- One raw record as fed to buildTree. The parent field models the JS
object literal: an insertion-ordered association list of level-key to
ancestor id. none models a record object with no parent property at all
(in JS, Object.keys(undefined) throws). -/
structure RawRecord where
  id : String
  name : String
  description : String
  parent : Option (List (String × String))
deriving DecidableEq

/-- A node of the built tree, mirroring the object created in buildTree.
parentId stores the raw previousNodeId value (none models null). -/
structure TreeNode where
  id : String
  label : String
  description : String
  level : Nat
  parentId : Option String
  children : List String
deriving DecidableEq

/-- The tree object: entries of the JS object in insertion order. The key of
an entry is the id field of the node (the code always writes
tree[currentNodeId] = an object whose id is currentNodeId). -/
abbrev Tree := List TreeNode

/-- Property lookup tree[id]: the first (and, for trees the code builds,
only) node whose id matches; none models undefined. -/
def lookup (tree : Tree) (id : String) : Option TreeNode :=
  List.find? (fun n => n.id == id) tree

/-- Object.keys of the tree, in insertion order. -/
def idsOf (tree : Tree) : List String :=
  List.map TreeNode.id tree

/-- In-place mutation of the entry with the given key (first match). -/
def updateNode : Tree → String → (TreeNode → TreeNode) → Tree
  | [], _, _ => []
  | n :: rest, id, f =>
    if n.id == id then f n :: rest else n :: updateNode rest id f

/-- A JS Set of strings: the list of its elements in insertion order,
duplicate-free by construction of sadd. -/
abbrev SSet := List String

/-- JS Set.prototype.add: append the element unless it is already present. -/
def sadd (s : SSet) (x : String) : SSet :=
  if x ∈ s then s else s ++ [x]

/-- Association-list lookup obj[k] for a JS object modelled as an ordered
list of entries with unique keys. -/
def lookupAssoc {α : Type} : List (String × α) → String → Option α
  | [], _ => none
  | e :: rest, k => if e.1 == k then some e.2 else lookupAssoc rest k

/-- Association-list assignment obj[k] = v: overwrite in place if the key
exists, otherwise append (JS objects keep insertion order for string keys). -/
def setAssoc {α : Type} : List (String × α) → String → α → List (String × α)
  | [], k, v => [(k, v)]
  | e :: rest, k, v => if e.1 == k then (k, v) :: rest else e :: setAssoc rest k v

/-- Insert an element into a sorted list, before the first entry it is
le-related to; the building block of the stable sort. -/
def insertLe {α : Type} (le : α → α → Bool) (x : α) : List α → List α
  | [] => [x]
  | y :: ys => if le x y then x :: y :: ys else y :: insertLe le x ys

/-- Stable sort by a boolean comparator relation, the behaviour
Array.prototype.sort exhibits for a consistent comparator: equal elements
keep their original relative order. -/
def stableSort {α : Type} (le : α → α → Bool) : List α → List α
  | [] => []
  | x :: xs => insertLe le x (stableSort le xs)

/-- Strict lexicographic order on character lists by code point, the order
underlying the default string comparison of Array.prototype.sort. -/
def charListLt : List Char → List Char → Bool
  | _, [] => false
  | [], _ :: _ => true
  | a :: as, b :: bs =>
    if a.toNat < b.toNat then true
    else if b.toNat < a.toNat then false
    else charListLt as bs

/-- The default-sort string comparison: a strictly precedes b. -/
def jsStrLt (a b : String) : Bool :=
  charListLt a.data b.data

/-- The stable-sort ordering for the default comparator: a may stay before b
unless b strictly precedes a. -/
def strLeB (a b : String) : Bool :=
  ! jsStrLt b a

/-- JS parseInt with radix 10 on the characters of a string: skip leading
whitespace, read an optional sign, then the longest digit prefix; none
models NaN. -/
def jsParseInt (cs0 : List Char) : Option Int :=
  let cs := List.dropWhile (fun c => c == ' ' || c == '\t' || c == '\n' || c == '\r') cs0
  let sr : Int × List Char :=
    match cs with
    | '-' :: rest => (-1, rest)
    | '+' :: rest => (1, rest)
    | _ => (1, cs)
  let ds := List.takeWhile Char.isDigit sr.2
  if ds.isEmpty then none
  else some (sr.1 * (ds.foldl (fun acc c => acc * 10 + (c.toNat - 48)) 0 : Nat))

/-- String.prototype.split('-') on the character list of a key. -/
def splitDash : List Char → List (List Char)
  | [] => [[]]
  | c :: rest =>
    if c = '-' then [] :: splitDash rest
    else
      match splitDash rest with
      | [] => [[c]]
      | seg :: segs => (c :: seg) :: segs

/-- parseInt(key.split('-')[1]): the numeric value of the text after the
first dash of a level key; none models NaN (no dash, or a non-numeric
suffix). -/
def numSuffix (k : String) : Option Int :=
  match splitDash k.data with
  | _ :: s :: _ => jsParseInt s
  | _ => none

/-- The comparator parseInt(a.split('-')[1]) - parseInt(b.split('-')[1]) as
consumed by Array.prototype.sort: a NaN comparator result is treated as 0
(SortCompare clamps NaN to +0), so any comparison involving a non-numeric
suffix is a tie. -/
def jsCompareKeys (a b : String) : Int :=
  match numSuffix a, numSuffix b with
  | some x, some y => x - y
  | _, _ => 0

/-- Stable-sort ordering induced by the level-key comparator: a may stay
before b unless the comparator strictly orders b first. -/
def keyLe (a b : String) : Bool :=
  decide (jsCompareKeys a b ≤ 0)

/-- Object.keys(item.parent).sort(comparator): stable sort of the level keys
by the numeric-suffix comparator. -/
def sortKeys (ks : List String) : List String :=
  stableSort keyLe ks

/-- The root-to-leaf chain of ids declared by one parent mapping: sorted
level keys, each indexed back into the mapping. The default value of the
getD is unreachable because every sorted key comes from the mapping itself. -/
def chainOf (pm : List (String × String)) : List String :=
  List.map (fun k => (lookupAssoc pm k).getD "") (sortKeys (List.map Prod.fst pm))

/-- First pass of buildTree: nodeInfo[item.id] = name and description for
each record, later records overwriting earlier ones. -/
def collectInfo (rs : List RawRecord) : List (String × String × String) :=
  rs.foldl (fun m item => setAssoc m item.id (item.name, item.description)) []

/-- nodeInfo[currentNodeId] with the deterministic placeholder fallback. -/
def infoFor (info : List (String × String × String)) (id : String) : String × String :=
  match lookupAssoc info id with
  | some p => p
  | none => ("Node " ++ id, "Description for " ++ id)

/-- Create the node for an id if it is not in the tree yet: level is the
position index inside the current chain, parentId the previous chain id. -/
def createIfAbsent (info : List (String × String × String)) (t : Tree)
    (cur : String) (idx : Nat) (prev : Option String) : Tree :=
  match lookup t cur with
  | some _ => t
  | none =>
    let p := infoFor info cur
    t ++ [⟨cur, p.1, p.2, idx, prev, []⟩]

/-- Push cur onto the children of a node unless it is already present
(the includes check of App.jsx, equivalently the childrenSet of the
optimized variant). -/
def addChild (n : TreeNode) (cur : String) : TreeNode :=
  if cur ∈ n.children then n else { n with children := n.children ++ [cur] }

/-- Link the current chain id as a child of the previous one; the JS guard
is the truthiness of previousNodeId, so null and the empty string skip. -/
def linkChild (t : Tree) (prev : Option String) (cur : String) : Tree :=
  match prev with
  | some pid => if pid ≠ "" then updateNode t pid (fun n => addChild n cur) else t
  | none => t

/-- The forEach over one sorted chain: create-if-absent, then link, then
step previousNodeId and the index. -/
def processChainAux (info : List (String × String × String)) :
    Tree → Option String → Nat → List String → Tree
  | t, _, _, [] => t
  | t, prev, idx, cur :: rest =>
    let t1 := createIfAbsent info t cur idx prev
    let t2 := linkChild t1 prev cur
    processChainAux info t2 (some cur) (idx + 1) rest

/-- One record of the second pass; none models the TypeError thrown by
Object.keys(item.parent) when the parent property is missing. -/
def processRecord (info : List (String × String × String)) (t : Tree)
    (item : RawRecord) : Option Tree :=
  match item.parent with
  | none => none
  | some pm => some (processChainAux info t none 0 (chainOf pm))

/-- The second pass over all records, propagating a thrown TypeError. -/
def processRecords (info : List (String × String × String))
    (rs : List RawRecord) (t : Tree) : Option Tree :=
  rs.foldlM (fun acc r => processRecord info acc r) t

/-- buildTree(rawData): collect metadata, then fold the chains into the
tree, starting from the empty object. -/
def buildTree (rs : List RawRecord) : Option Tree :=
  processRecords (collectInfo rs) rs []

/-- Object.values(tree).find(node level 0): the first node in insertion
order whose level is 0. -/
def rootOf (tree : Tree) : Option TreeNode :=
  List.find? (fun n => n.level == 0) tree

/-- The while-loop body of getVisibleNodesIterative with explicit fuel: at
each iteration the dequeued id is added to the visible set, and if it is in
the expanded set its children are appended to the queue. none models either
fuel exhaustion (the JS loop would still be running) or the TypeError from
reading the children of an id that is not in the tree. -/
def bfsAux (tree : Tree) (S : SSet) :
    Nat → SSet → List String → Option SSet
  | _, vis, [] => some vis
  | 0, _, _ :: _ => none
  | fuel + 1, vis, n :: q =>
    let vis2 := sadd vis n
    if n ∈ S then
      match lookup tree n with
      | none => none
      | some node => bfsAux tree S fuel vis2 (q ++ node.children)
    else
      bfsAux tree S fuel vis2 q

/-- getVisibleNodesIterative(tree, expandedNodes) from part_000: empty set
when there is no level-0 node, otherwise breadth-first traversal from the
root with an explicit queue. -/
def getVisibleNodesIterative (fuel : Nat) (tree : Tree) (S : SSet) :
    Option SSet :=
  match rootOf tree with
  | none => some []
  | some r => bfsAux tree S fuel [] [r.id]

/-- The recursive traverse of getVisibleNodes from App.jsx, as a worklist of
the pending traverse calls: traverse(n) adds n to the visible set and, when
n is expanded, recurses into all of its children before the remaining
siblings are processed. The fuel bounds the total work of the run; a
terminating JS run is any run that returns some for a large enough fuel. -/
def dfsMany (tree : Tree) (S : SSet) :
    Nat → SSet → List String → Option SSet
  | _, vis, [] => some vis
  | 0, _, _ :: _ => none
  | fuel + 1, vis, n :: rest =>
    let vis2 := sadd vis n
    if n ∈ S then
      match lookup tree n with
      | none => none
      | some node =>
        match dfsMany tree S fuel vis2 node.children with
        | none => none
        | some vis3 => dfsMany tree S fuel vis3 rest
    else
      dfsMany tree S fuel vis2 rest

/-- getVisibleNodes(tree, expandedNodes) from App.jsx: empty set when there
is no level-0 node, otherwise the recursive traversal from the root. -/
def getVisibleNodes (fuel : Nat) (tree : Tree) (S : SSet) :
    Option SSet :=
  match rootOf tree with
  | none => some []
  | some r => dfsMany tree S fuel [] [r.id]

/-- The ids of one level in creation order (insertion order of the tree
object restricted to that level). -/
def levelIds (tree : Tree) (l : Nat) : List String :=
  List.map TreeNode.id (List.filter (fun n => n.level == l) tree)

/-- The levels present in the tree; Object.entries visits the integer-like
keys of nodesByLevel in ascending numeric order. -/
def levelsOf (tree : Tree) : List Nat :=
  stableSort (fun a b => decide (a ≤ b)) (List.dedup (List.map TreeNode.level tree))

/-- nodeIds.sort(): the ids of a level after the default lexicographic
sort. -/
def sortedLevelIds (tree : Tree) (l : Nat) : List String :=
  stableSort strLeB (levelIds tree l)

/-- Position of the i-th of n nodes of a level: x = -(n-1)*110/2 + i*110,
y = level*100 (horizontalGap 110, verticalGap 100; all values integral). -/
def posOfIndex (n i l : Nat) : Int × Int :=
  (-(((n : Int) - 1) * 110) / 2 + (i : Int) * 110, (l : Int) * 100)

/-- The forEach((nodeId, index)) assignment loop of one level: one position
entry per id, indices counting up from i. -/
def rowsFrom (f : Nat → Int × Int) : Nat → List String → List (String × (Int × Int))
  | _, [] => []
  | i, id :: rest => (id, f i) :: rowsFrom f (i + 1) rest

/-- calculateLayout(tree): per level in ascending order, sort the ids and
spread them around x = 0 at y = level * verticalGap. -/
def calculateLayout (tree : Tree) : List (String × (Int × Int)) :=
  (levelsOf tree).flatMap fun l =>
    let ids := sortedLevelIds tree l
    rowsFrom (fun i => posOfIndex ids.length i l) 0 ids

/-- A ReactFlow node descriptor as assembled in rebuildTree (the
presentational type tag and the onToggle closure carry no data and are
omitted); position is undefined (none) when the position map lacks the id. -/
structure NodeDesc where
  id : String
  label : String
  description : String
  isExpanded : Bool
  hasChildren : Bool
  position : Option (Int × Int)
deriving DecidableEq

/-- A ReactFlow edge descriptor from rebuildTree. -/
structure EdgeDesc where
  id : String
  source : String
  target : String
deriving DecidableEq

/-- The node descriptor pushed for one visible tree node. -/
def descOf (S : SSet) (pos : List (String × (Int × Int)))
    (n : TreeNode) : NodeDesc :=
  ⟨n.id, n.label, n.description, decide (n.id ∈ S),
    decide (0 < n.children.length), lookupAssoc pos n.id⟩

/-- The edges pushed for one visible tree node: one edge from its parentId
when that is truthy and itself visible. -/
def edgesFor (V : SSet) (n : TreeNode) : List EdgeDesc :=
  match n.parentId with
  | some pid =>
    if pid ≠ "" ∧ pid ∈ V then [⟨pid ++ "-" ++ n.id, pid, n.id⟩] else []
  | none => []

/-- The forEach over Object.values(tree) of rebuildTree: skip invisible
nodes, push a node descriptor and the parent edge for visible ones. -/
def materialize (S V : SSet) (pos : List (String × (Int × Int))) :
    List TreeNode → List NodeDesc × List EdgeDesc
  | [] => ([], [])
  | n :: rest =>
    let r := materialize S V pos rest
    if n.id ∈ V then (descOf S pos n :: r.1, edgesFor V n ++ r.2) else r

/-- rebuildTree from part_000: compute the visible set iteratively, then
materialize the ReactFlow node and edge lists from it. -/
def rebuildTree (fuel : Nat) (tree : Tree) (S : SSet)
    (pos : List (String × (Int × Int))) :
    Option (List NodeDesc × List EdgeDesc) :=
  (getVisibleNodesIterative fuel tree S).map (fun V => materialize S V pos tree)

/-- collapseAll(): setExpandedNodes(new Set(['main'])). -/
def collapseAllSet : SSet := ["main"]

/-- expandAll(): setExpandedNodes(new Set(Object.keys(tree))). -/
def expandAllSet (tree : Tree) : SSet :=
  idsOf tree

/-- The ids reachable from the start id by repeatedly stepping from an
expanded node to one of its stored children. -/
inductive Reach (tree : Tree) (S : SSet) (root : String) : String → Prop
  | root : Reach tree S root root
  | step {p c : String} {node : TreeNode} : Reach tree S root p → p ∈ S →
      lookup tree p = some node → c ∈ node.children → Reach tree S root c

/-- Structural sanity of a tree object: distinct keys and every stored child
id present as a key (both hold for every tree buildTree produces). -/
def wfTree (tree : Tree) : Prop :=
  (idsOf tree).Nodup ∧ ∀ n ∈ tree, ∀ c ∈ n.children, c ∈ idsOf tree

instance : DecidablePred wfTree := fun tree => by
  unfold wfTree
  infer_instance

section SetLemmas

/-- Membership after a JS Set add. -/
lemma mem_sadd {s : SSet} {n x : String} : x ∈ sadd s n ↔ x = n ∨ x ∈ s := by
  unfold sadd
  by_cases h : n ∈ s
  · rw [if_pos h]
    constructor
    · exact fun hx => Or.inr hx
    · intro hx
      rcases hx with rfl | hx
      · exact h
      · exact hx
  · rw [if_neg h]
    simp [List.mem_append, or_comm]

/-- A JS Set only grows under add. -/
lemma subset_sadd {s : SSet} {n : String} : s ⊆ sadd s n :=
  fun _ ha => mem_sadd.mpr (Or.inr ha)

/-- The element just added is a member. -/
lemma self_mem_sadd {s : SSet} {n : String} : n ∈ sadd s n :=
  mem_sadd.mpr (Or.inl rfl)

/-- Adding to a duplicate-free JS Set keeps it duplicate-free. -/
lemma sadd_nodup {s : SSet} {n : String} (h : s.Nodup) : (sadd s n).Nodup := by
  unfold sadd
  by_cases hn : n ∈ s
  · rw [if_pos hn]
    exact h
  · rw [if_neg hn]
    rw [List.nodup_append]
    refine ⟨h, List.nodup_singleton n, ?_⟩
    intro a ha han
    rw [List.mem_singleton] at han
    exact hn (han ▸ ha)

end SetLemmas

section VisibleLemmas

variable {tree : Tree} {S : SSet}

/-- Anything already visible, and anything still queued, ends up in the
result of a terminating run of the iterative traversal. -/
lemma bfsAux_grow : ∀ (fuel : Nat) (vis : SSet) (q : List String)
    (V : SSet), bfsAux tree S fuel vis q = some V →
    vis ⊆ V ∧ ∀ n ∈ q, n ∈ V := by
  intro fuel
  induction fuel with
  | zero =>
    intro vis q V h
    cases q with
    | nil =>
      simp only [bfsAux, Option.some.injEq] at h
      subst h
      exact ⟨List.Subset.refl _, by simp⟩
    | cons n rest => simp [bfsAux] at h
  | succ fuel ih =>
    intro vis q V h
    cases q with
    | nil =>
      simp only [bfsAux, Option.some.injEq] at h
      subst h
      exact ⟨List.Subset.refl _, by simp⟩
    | cons n rest =>
      simp only [bfsAux] at h
      by_cases hn : n ∈ S
      · rw [if_pos hn] at h
        cases hlk : lookup tree n with
        | none => simp [hlk] at h
        | some node =>
          simp only [hlk] at h
          obtain ⟨h1, h2⟩ := ih _ _ _ h
          refine ⟨subset_sadd.trans h1, ?_⟩
          intro m hm
          rcases List.mem_cons.mp hm with rfl | hm
          · exact h1 self_mem_sadd
          · exact h2 _ (List.mem_append_left _ hm)
      · rw [if_neg hn] at h
        obtain ⟨h1, h2⟩ := ih _ _ _ h
        refine ⟨subset_sadd.trans h1, ?_⟩
        intro m hm
        rcases List.mem_cons.mp hm with rfl | hm
        · exact h1 self_mem_sadd
        · exact h2 _ hm

/-- A terminating run started from a duplicate-free visible set returns a
duplicate-free set (the JS Set never holds duplicates). -/
lemma bfsAux_nodup : ∀ (fuel : Nat) (vis : SSet) (q : List String)
    (V : SSet), vis.Nodup → bfsAux tree S fuel vis q = some V → V.Nodup := by
  intro fuel
  induction fuel with
  | zero =>
    intro vis q V hnd h
    cases q with
    | nil =>
      simp only [bfsAux, Option.some.injEq] at h
      subst h
      exact hnd
    | cons n rest => simp [bfsAux] at h
  | succ fuel ih =>
    intro vis q V hnd h
    cases q with
    | nil =>
      simp only [bfsAux, Option.some.injEq] at h
      subst h
      exact hnd
    | cons n rest =>
      simp only [bfsAux] at h
      by_cases hn : n ∈ S
      · rw [if_pos hn] at h
        cases hlk : lookup tree n with
        | none => simp [hlk] at h
        | some node =>
          simp only [hlk] at h
          exact ih _ _ _ (sadd_nodup hnd) h
      · rw [if_neg hn] at h
        exact ih _ _ _ (sadd_nodup hnd) h

/-- In a terminating run, every expanded id of the result that was not
already visible at the start has its node in the tree and all of its
children in the result. -/
lemma bfsAux_closed : ∀ (fuel : Nat) (vis : SSet) (q : List String)
    (V : SSet), bfsAux tree S fuel vis q = some V →
    ∀ p ∈ V, p ∉ vis → p ∈ S →
    ∃ node, lookup tree p = some node ∧ ∀ c ∈ node.children, c ∈ V := by
  intro fuel
  induction fuel with
  | zero =>
    intro vis q V h
    cases q with
    | nil =>
      simp only [bfsAux, Option.some.injEq] at h
      subst h
      intro p hp hnv
      exact absurd hp hnv
    | cons n rest => simp [bfsAux] at h
  | succ fuel ih =>
    intro vis q V h
    cases q with
    | nil =>
      simp only [bfsAux, Option.some.injEq] at h
      subst h
      intro p hp hnv
      exact absurd hp hnv
    | cons n rest =>
      simp only [bfsAux] at h
      by_cases hn : n ∈ S
      · rw [if_pos hn] at h
        cases hlk : lookup tree n with
        | none => simp [hlk] at h
        | some node =>
          simp only [hlk] at h
          intro p hp hnv hpS
          by_cases hpn : p = n
          · subst hpn
            refine ⟨node, hlk, ?_⟩
            intro c hc
            exact (bfsAux_grow _ _ _ _ h).2 _ (List.mem_append_right _ hc)
          · exact ih _ _ _ h p hp (by simp [mem_sadd, hpn, hnv]) hpS
      · rw [if_neg hn] at h
        intro p hp hnv hpS
        have hpn : p ≠ n := fun he => hn (he ▸ hpS)
        exact ih _ _ _ h p hp (by simp [mem_sadd, hpn, hnv]) hpS

/-- Everything a terminating run of the iterative traversal returns is
reachable, provided the initial visible set and queue are. -/
lemma bfsAux_sound {r : String} : ∀ (fuel : Nat) (vis : SSet)
    (q : List String) (V : SSet),
    (∀ v ∈ vis, Reach tree S r v) → (∀ n ∈ q, Reach tree S r n) →
    bfsAux tree S fuel vis q = some V → ∀ v ∈ V, Reach tree S r v := by
  intro fuel
  induction fuel with
  | zero =>
    intro vis q V hvis hq h
    cases q with
    | nil =>
      simp only [bfsAux, Option.some.injEq] at h
      subst h
      exact hvis
    | cons n rest => simp [bfsAux] at h
  | succ fuel ih =>
    intro vis q V hvis hq h
    cases q with
    | nil =>
      simp only [bfsAux, Option.some.injEq] at h
      subst h
      exact hvis
    | cons n rest =>
      have hrn : Reach tree S r n := hq _ (List.mem_cons_self _ _)
      have hvis2 : ∀ v ∈ sadd vis n, Reach tree S r v := by
        intro v hv
        rcases mem_sadd.mp hv with rfl | hv
        · exact hrn
        · exact hvis _ hv
      simp only [bfsAux] at h
      by_cases hn : n ∈ S
      · rw [if_pos hn] at h
        cases hlk : lookup tree n with
        | none => simp [hlk] at h
        | some node =>
          simp only [hlk] at h
          refine ih _ _ _ hvis2 ?_ h
          intro m hm
          rcases List.mem_append.mp hm with hm | hm
          · exact hq _ (List.mem_cons_of_mem _ hm)
          · exact Reach.step hrn hn hlk hm
      · rw [if_neg hn] at h
        refine ih _ _ _ hvis2 ?_ h
        intro m hm
        exact hq _ (List.mem_cons_of_mem _ hm)

/-- A terminating run of getVisibleNodesIterative returns exactly the set of
ids reachable from the root through expanded nodes. -/
theorem iterative_eq_reach {fuel : Nat} {V : SSet} {rt : TreeNode}
    (hr : rootOf tree = some rt)
    (h : getVisibleNodesIterative fuel tree S = some V) :
    ∀ x, x ∈ V ↔ Reach tree S rt.id x := by
  unfold getVisibleNodesIterative at h
  rw [hr] at h
  intro x
  constructor
  · intro hx
    refine bfsAux_sound fuel [] [rt.id] V (by simp) ?_ h x hx
    intro n hn
    rcases List.mem_cons.mp hn with rfl | hn
    · exact Reach.root
    · exact absurd hn (List.not_mem_nil _)
  · intro hx
    induction hx with
    | root => exact (bfsAux_grow fuel [] [rt.id] V h).2 _ (List.mem_cons_self _ _)
    | step hp hS hlk hc ihp =>
      rename_i p c node
      obtain ⟨node2, hlk2, hch⟩ :=
        bfsAux_closed fuel [] [rt.id] V h p ihp (List.not_mem_nil _) hS
      rw [hlk] at hlk2
      have hnode : node = node2 := Option.some.inj hlk2
      exact hch _ (hnode ▸ hc)

end VisibleLemmas

section RecursiveLemmas

variable {tree : Tree} {S : SSet}

/-- Anything already visible, and every id of the pending worklist, ends up
in the result of a terminating run of the recursive traversal. -/
lemma dfsMany_grow : ∀ (fuel : Nat) (vis : SSet) (l : List String)
    (V : SSet), dfsMany tree S fuel vis l = some V →
    vis ⊆ V ∧ ∀ n ∈ l, n ∈ V := by
  intro fuel
  induction fuel with
  | zero =>
    intro vis l V h
    cases l with
    | nil =>
      simp only [dfsMany, Option.some.injEq] at h
      subst h
      exact ⟨List.Subset.refl _, by simp⟩
    | cons n rest => simp [dfsMany] at h
  | succ fuel ih =>
    intro vis l V h
    cases l with
    | nil =>
      simp only [dfsMany, Option.some.injEq] at h
      subst h
      exact ⟨List.Subset.refl _, by simp⟩
    | cons n rest =>
      simp only [dfsMany] at h
      by_cases hn : n ∈ S
      · rw [if_pos hn] at h
        cases hlk : lookup tree n with
        | none => simp [hlk] at h
        | some node =>
          simp only [hlk] at h
          cases h3 : dfsMany tree S fuel (sadd vis n) node.children with
          | none => simp [h3] at h
          | some vis3 =>
            simp only [h3] at h
            obtain ⟨g1, _⟩ := ih _ _ _ h3
            obtain ⟨g3, g4⟩ := ih _ _ _ h
            constructor
            · exact (subset_sadd.trans g1).trans g3
            · intro m hm
              rcases List.mem_cons.mp hm with rfl | hm
              · exact g3 (g1 self_mem_sadd)
              · exact g4 _ hm
      · rw [if_neg hn] at h
        obtain ⟨g3, g4⟩ := ih _ _ _ h
        refine ⟨subset_sadd.trans g3, ?_⟩
        intro m hm
        rcases List.mem_cons.mp hm with rfl | hm
        · exact g3 self_mem_sadd
        · exact g4 _ hm

/-- In a terminating run of the recursive traversal, every expanded id of
the result that was not visible at the start has its node in the tree and
all of its children in the result. -/
lemma dfsMany_closed : ∀ (fuel : Nat) (vis : SSet) (l : List String)
    (V : SSet), dfsMany tree S fuel vis l = some V →
    ∀ p ∈ V, p ∉ vis → p ∈ S →
    ∃ node, lookup tree p = some node ∧ ∀ c ∈ node.children, c ∈ V := by
  intro fuel
  induction fuel with
  | zero =>
    intro vis l V h
    cases l with
    | nil =>
      simp only [dfsMany, Option.some.injEq] at h
      subst h
      intro p hp hnv
      exact absurd hp hnv
    | cons n rest => simp [dfsMany] at h
  | succ fuel ih =>
    intro vis l V h
    cases l with
    | nil =>
      simp only [dfsMany, Option.some.injEq] at h
      subst h
      intro p hp hnv
      exact absurd hp hnv
    | cons n rest =>
      simp only [dfsMany] at h
      by_cases hn : n ∈ S
      · rw [if_pos hn] at h
        cases hlk : lookup tree n with
        | none => simp [hlk] at h
        | some node =>
          simp only [hlk] at h
          cases h3 : dfsMany tree S fuel (sadd vis n) node.children with
          | none => simp [h3] at h
          | some vis3 =>
            simp only [h3] at h
            intro p hp hnv hpS
            by_cases hpn : p = n
            · subst hpn
              refine ⟨node, hlk, ?_⟩
              intro c hc
              exact (dfsMany_grow fuel vis3 rest V h).1
                ((dfsMany_grow fuel (sadd vis p) node.children vis3 h3).2 _ hc)
            · by_cases hp3 : p ∈ vis3
              · obtain ⟨nd, hnd1, hnd2⟩ :=
                  ih _ _ _ h3 p hp3 (by simp [mem_sadd, hpn, hnv]) hpS
                exact ⟨nd, hnd1, fun c hc =>
                  (dfsMany_grow fuel vis3 rest V h).1 (hnd2 _ hc)⟩
              · exact ih _ _ _ h p hp hp3 hpS
      · rw [if_neg hn] at h
        intro p hp hnv hpS
        have hpn : p ≠ n := fun he => hn (he ▸ hpS)
        exact ih _ _ _ h p hp (by simp [mem_sadd, hpn, hnv]) hpS

/-- Everything a terminating run of the recursive traversal returns is
reachable, provided the initial visible set and worklist are. -/
lemma dfsMany_sound {r : String} : ∀ (fuel : Nat) (vis : SSet)
    (l : List String) (V : SSet),
    (∀ v ∈ vis, Reach tree S r v) → (∀ n ∈ l, Reach tree S r n) →
    dfsMany tree S fuel vis l = some V → ∀ v ∈ V, Reach tree S r v := by
  intro fuel
  induction fuel with
  | zero =>
    intro vis l V hvis hl h
    cases l with
    | nil =>
      simp only [dfsMany, Option.some.injEq] at h
      subst h
      exact hvis
    | cons n rest => simp [dfsMany] at h
  | succ fuel ih =>
    intro vis l V hvis hl h
    cases l with
    | nil =>
      simp only [dfsMany, Option.some.injEq] at h
      subst h
      exact hvis
    | cons n rest =>
      have hrn : Reach tree S r n := hl _ (List.mem_cons_self _ _)
      have hvis2 : ∀ v ∈ sadd vis n, Reach tree S r v := by
        intro v hv
        rcases mem_sadd.mp hv with rfl | hv
        · exact hrn
        · exact hvis _ hv
      have hrest : ∀ m ∈ rest, Reach tree S r m := fun m hm =>
        hl _ (List.mem_cons_of_mem _ hm)
      simp only [dfsMany] at h
      by_cases hn : n ∈ S
      · rw [if_pos hn] at h
        cases hlk : lookup tree n with
        | none => simp [hlk] at h
        | some node =>
          simp only [hlk] at h
          cases h3 : dfsMany tree S fuel (sadd vis n) node.children with
          | none => simp [h3] at h
          | some vis3 =>
            simp only [h3] at h
            have hvis3 : ∀ v ∈ vis3, Reach tree S r v := by
              refine ih _ _ _ hvis2 ?_ h3
              intro c hc
              exact Reach.step hrn hn hlk hc
            exact ih _ _ _ hvis3 hrest h
      · rw [if_neg hn] at h
        exact ih _ _ _ hvis2 hrest h

/-- A terminating run of the recursive getVisibleNodes returns exactly the
set of ids reachable from the root through expanded nodes. -/
theorem recursive_eq_reach {fuel : Nat} {V : SSet} {rt : TreeNode}
    (hr : rootOf tree = some rt)
    (h : getVisibleNodes fuel tree S = some V) :
    ∀ x, x ∈ V ↔ Reach tree S rt.id x := by
  unfold getVisibleNodes at h
  rw [hr] at h
  intro x
  constructor
  · intro hx
    refine dfsMany_sound fuel [] [rt.id] V (by simp) ?_ h x hx
    intro n hn
    rcases List.mem_cons.mp hn with rfl | hn
    · exact Reach.root
    · exact absurd hn (List.not_mem_nil _)
  · intro hx
    induction hx with
    | root => exact (dfsMany_grow fuel [] [rt.id] V h).2 _ (List.mem_cons_self _ _)
    | step hp hS hlk hc ihp =>
      rename_i p c node
      obtain ⟨node2, hlk2, hch⟩ :=
        dfsMany_closed fuel [] [rt.id] V h p ihp (List.not_mem_nil _) hS
      rw [hlk] at hlk2
      have hnode : node = node2 := Option.some.inj hlk2
      exact hch _ (hnode ▸ hc)

end RecursiveLemmas

section ReachLemmas

variable {tree : Tree}

/-- Reachability only grows when the expanded set grows. -/
lemma reach_mono {S T : SSet} (hst : S ⊆ T) {r x : String}
    (h : Reach tree S r x) : Reach tree T r x := by
  induction h with
  | root => exact Reach.root
  | step _ hS hlk hc ih => exact Reach.step ih (hst hS) hlk hc

/-- With distinct keys, looking a member node up by its id returns it. -/
lemma lookup_self {n : TreeNode} (hnd : (idsOf tree).Nodup) (hn : n ∈ tree) :
    lookup tree n.id = some n := by
  induction tree with
  | nil => exact absurd hn (List.not_mem_nil _)
  | cons m rest ih =>
    rcases List.mem_cons.mp hn with rfl | hn
    · simp [lookup]
    · have hne : m.id ≠ n.id := by
        intro he
        have : n.id ∈ idsOf rest := List.mem_map_of_mem _ hn
        rw [← he] at this
        exact (List.nodup_cons.mp hnd).1 this
      have hbe : (m.id == n.id) = false := by simp [hne]
      simp only [lookup, List.find?, hbe]
      have := ih (List.nodup_cons.mp hnd).2 hn
      simpa [lookup] using this

/-- With distinct keys, two member nodes sharing an id are equal. -/
lemma eq_of_mem_of_id_eq {n m : TreeNode} (hnd : (idsOf tree).Nodup)
    (hn : n ∈ tree) (hm : m ∈ tree) (hid : n.id = m.id) : n = m := by
  have h1 := lookup_self hnd hn
  have h2 := lookup_self hnd hm
  rw [hid] at h1
  rw [h1] at h2
  exact Option.some.inj h2

/-- The node found by rootOf is a member of the tree. -/
lemma rootOf_mem {rt : TreeNode} (hr : rootOf tree = some rt) : rt ∈ tree :=
  List.mem_of_find?_eq_some hr

/-- The node found by rootOf has level 0. -/
lemma rootOf_level {rt : TreeNode} (hr : rootOf tree = some rt) : rt.level = 0 := by
  have := List.find?_some hr
  simpa using this

/-- Everything reachable is a key of the tree. -/
lemma reach_subset_ids {S : SSet} {rt : TreeNode} {x : String}
    (hwf : wfTree tree) (hr : rootOf tree = some rt)
    (h : Reach tree S rt.id x) : x ∈ idsOf tree := by
  induction h with
  | root => exact List.mem_map_of_mem _ (rootOf_mem hr)
  | step _ _ hlk hc _ =>
    exact hwf.2 _ (List.mem_of_find?_eq_some hlk) _ hc

end ReachLemmas

section SortLemmas

variable {α : Type} {le : α → α → Bool}

/-- Inserting is a permutation of consing. -/
lemma insertLe_perm (x : α) (l : List α) : (insertLe le x l).Perm (x :: l) := by
  induction l with
  | nil => simp [insertLe]
  | cons y ys ih =>
    simp only [insertLe]
    by_cases h : le x y
    · rw [if_pos h]
    · rw [if_neg h]
      exact (ih.cons y).trans (List.Perm.swap x y ys)

/-- The stable sort permutes its input. -/
lemma stableSort_perm (l : List α) : (stableSort le l).Perm l := by
  induction l with
  | nil => exact List.Perm.refl _
  | cons x xs ih =>
    exact (insertLe_perm x (stableSort le xs)).trans (ih.cons x)

/-- Membership is preserved by the stable sort. -/
lemma mem_stableSort {x : α} {l : List α} : x ∈ stableSort le l ↔ x ∈ l :=
  (stableSort_perm l).mem_iff

/-- Length is preserved by the stable sort. -/
lemma stableSort_length (l : List α) : (stableSort le l).length = l.length :=
  (stableSort_perm l).length_eq

/-- Distinctness is preserved by the stable sort. -/
lemma stableSort_nodup {l : List α} (h : l.Nodup) : (stableSort le l).Nodup :=
  ((stableSort_perm l).nodup_iff).mpr h

/-- Inserting into a le-sorted list keeps it sorted, given a transitive and
total comparator relation. -/
lemma pairwise_insertLe
    (htrans : ∀ a b c, le a b = true → le b c = true → le a c = true)
    (htot : ∀ a b, le a b = true ∨ le b a = true)
    {x : α} {l : List α} (h : l.Pairwise (fun a b => le a b = true)) :
    (insertLe le x l).Pairwise (fun a b => le a b = true) := by
  induction l with
  | nil => simp [insertLe]
  | cons y ys ih =>
    simp only [insertLe]
    obtain ⟨h1, h2⟩ := List.pairwise_cons.mp h
    by_cases hxy : le x y
    · rw [if_pos hxy]
      refine List.Pairwise.cons ?_ h
      intro b hb
      rcases List.mem_cons.mp hb with rfl | hb
      · exact hxy
      · exact htrans x y b hxy (h1 b hb)
    · rw [if_neg hxy]
      have hyx : le y x = true := by
        rcases htot x y with h3 | h3
        · exact absurd h3 hxy
        · exact h3
      refine List.Pairwise.cons ?_ (ih h2)
      intro b hb
      rcases List.mem_cons.mp ((insertLe_perm x ys).mem_iff.mp hb) with rfl | hb
      · exact hyx
      · exact h1 b hb

/-- The stable sort sorts, given a transitive and total comparator
relation. -/
lemma pairwise_stableSort
    (htrans : ∀ a b c, le a b = true → le b c = true → le a c = true)
    (htot : ∀ a b, le a b = true ∨ le b a = true)
    (l : List α) :
    (stableSort le l).Pairwise (fun a b => le a b = true) := by
  induction l with
  | nil => simp [stableSort]
  | cons x xs ih => exact pairwise_insertLe htrans htot ih

end SortLemmas

section CharOrderLemmas

/-- Strict lexicographic character-list order is transitive. -/
lemma charListLt_trans : ∀ {a b c : List Char},
    charListLt a b = true → charListLt b c = true → charListLt a c = true := by
  intro a
  induction a with
  | nil =>
    intro b c hab hbc
    cases b with
    | nil => simp [charListLt] at hab
    | cons y ys =>
      cases c with
      | nil => simp [charListLt] at hbc
      | cons z zs => simp [charListLt]
  | cons x xs ih =>
    intro b c hab hbc
    cases b with
    | nil => simp [charListLt] at hab
    | cons y ys =>
      cases c with
      | nil => simp [charListLt] at hbc
      | cons z zs =>
        simp only [charListLt] at hab hbc ⊢
        by_cases h1 : x.toNat < y.toNat
        · by_cases h2 : y.toNat < z.toNat
          · rw [if_pos (h1.trans h2)]
          · rw [if_neg h2] at hbc
            by_cases h3 : z.toNat < y.toNat
            · rw [if_pos h3] at hbc
              exact absurd hbc (by simp)
            · have hyz : y.toNat = z.toNat :=
                Nat.le_antisymm (Nat.not_lt.mp h3) (Nat.not_lt.mp h2)
              rw [if_pos (hyz ▸ h1)]
        · rw [if_neg h1] at hab
          by_cases h1' : y.toNat < x.toNat
          · rw [if_pos h1'] at hab
            exact absurd hab (by simp)
          · rw [if_neg h1'] at hab
            have hxy : x.toNat = y.toNat :=
              Nat.le_antisymm (Nat.not_lt.mp h1') (Nat.not_lt.mp h1)
            by_cases h2 : y.toNat < z.toNat
            · rw [if_pos (hxy ▸ h2)]
            · rw [if_neg h2] at hbc
              by_cases h3 : z.toNat < y.toNat
              · rw [if_pos h3] at hbc
                exact absurd hbc (by simp)
              · rw [if_neg h3] at hbc
                rw [if_neg (hxy ▸ h2), if_neg (fun hza => h3 (hxy ▸ hza))]
                exact ih hab hbc

/-- Strict lexicographic character-list order is asymmetric. -/
lemma charListLt_asymm : ∀ {a b : List Char},
    charListLt a b = true → charListLt b a = false := by
  intro a
  induction a with
  | nil =>
    intro b hab
    cases b with
    | nil => simp [charListLt] at hab
    | cons y ys => simp [charListLt]
  | cons x xs ih =>
    intro b hab
    cases b with
    | nil => simp [charListLt] at hab
    | cons y ys =>
      simp only [charListLt] at hab ⊢
      by_cases h1 : x.toNat < y.toNat
      · rw [if_neg (Nat.lt_asymm h1), if_pos h1]
      · rw [if_neg h1] at hab
        by_cases h2 : y.toNat < x.toNat
        · rw [if_pos h2] at hab
          exact absurd hab (by simp)
        · rw [if_neg h2] at hab
          rw [if_neg h2, if_neg h1]
          exact ih hab

/-- Distinct lists are strictly ordered one way or the other. -/
lemma charListLt_connex : ∀ {a b : List Char},
    charListLt a b = false → charListLt b a = false → a = b := by
  intro a
  induction a with
  | nil =>
    intro b hab _
    cases b with
    | nil => rfl
    | cons y ys => simp [charListLt] at hab
  | cons x xs ih =>
    intro b hab hba
    cases b with
    | nil => simp [charListLt] at hba
    | cons y ys =>
      simp only [charListLt] at hab hba
      by_cases h1 : x.toNat < y.toNat
      · rw [if_pos h1] at hab
        exact absurd hab (by simp)
      · rw [if_neg h1] at hab
        by_cases h2 : y.toNat < x.toNat
        · rw [if_pos h2] at hba
          exact absurd hba (by simp)
        · rw [if_neg h2] at hab
          rw [if_neg h2, if_neg h1] at hba
          have hxy : x = y :=
            Char.ext (UInt32.ext
              (Nat.le_antisymm (Nat.not_lt.mp h2) (Nat.not_lt.mp h1)))
          rw [hxy, ih hab hba]

/-- The default-sort string ordering is transitive. -/
lemma strLeB_trans : ∀ a b c : String,
    strLeB a b = true → strLeB b c = true → strLeB a c = true := by
  intro a b c hab hbc
  simp only [strLeB, jsStrLt, Bool.not_eq_true', Bool.not_eq_false] at hab hbc ⊢
  cases hca : charListLt c.data a.data with
  | false => rfl
  | true =>
    exfalso
    cases hbc2 : charListLt b.data c.data with
    | true =>
      have hba := charListLt_trans hbc2 hca
      rw [hba] at hab
      simp at hab
    | false =>
      have hbceq : c.data = b.data := charListLt_connex hbc hbc2
      rw [hbceq] at hca
      rw [hca] at hab
      simp at hab

/-- The default-sort string ordering is total. -/
lemma strLeB_total : ∀ a b : String, strLeB a b = true ∨ strLeB b a = true := by
  intro a b
  simp only [strLeB, jsStrLt, Bool.not_eq_true', Bool.not_eq_false]
  cases h : charListLt b.data a.data with
  | false => exact Or.inl rfl
  | true => exact Or.inr (charListLt_asymm h)

end CharOrderLemmas

section Examples

/-- Scenario 2 of the spec: the record declaring the root chain. -/
def exMain1 : RawRecord := ⟨"main", "Main", "dmain", some [("level-0", "main")]⟩

/-- Scenario 2 of the spec: the record declaring the chain main, main.1. -/
def exMain2 : RawRecord :=
  ⟨"main.1", "Main 1", "dmain1", some [("level-0", "main"), ("level-1", "main.1")]⟩

/-- The record list of Scenario 2. -/
def scenario2Records : List RawRecord := [exMain1, exMain2]

/-- The tree buildTree produces for Scenario 2. -/
def scenario2Tree : Tree :=
  [⟨"main", "Main", "dmain", 0, none, ["main.1"]⟩,
   ⟨"main.1", "Main 1", "dmain1", 1, some "main", []⟩]

/-- The root node of the Scenario 2 tree. -/
def scenario2Root : TreeNode := ⟨"main", "Main", "dmain", 0, none, ["main.1"]⟩

/-- Two records whose chains share the leaf c under different intermediate
parents: root, p, c and root, q, c. -/
def gatingRecords : List RawRecord :=
  [⟨"x", "X", "dx", some [("level-0", "root"), ("level-1", "p"), ("level-2", "c")]⟩,
   ⟨"y", "Y", "dy", some [("level-0", "root"), ("level-1", "q"), ("level-2", "c")]⟩]

/-- The tree buildTree produces for gatingRecords: c is parented to p by the
first chain, and is additionally a stored child of q from the second. -/
def gatingTree : Tree :=
  [⟨"root", "Node root", "Description for root", 0, none, ["p", "q"]⟩,
   ⟨"p", "Node p", "Description for p", 1, some "root", ["c"]⟩,
   ⟨"c", "Node c", "Description for c", 2, some "p", []⟩,
   ⟨"q", "Node q", "Description for q", 1, some "root", ["c"]⟩]

/-- The root node of gatingTree. -/
def gatingRoot : TreeNode :=
  ⟨"root", "Node root", "Description for root", 0, none, ["p", "q"]⟩

/-- An expanded set opening root and q but not p. -/
def gatingExpanded : SSet := ["root", "q"]

/-- The visible set of gatingTree under gatingExpanded, as both traversals
produce it. -/
def gatingVisible : SSet := ["root", "p", "q", "c"]

end Examples

section VisibilityClaims

/-- C1 counterexample: on the Scenario 2 tree (root id main), collapseAll()
returns the expanded set containing only main, yet computeVisible then
yields both main and main.1, not the singleton set of the root id. -/
theorem collapseAll_visible_cex :
    buildTree scenario2Records = some scenario2Tree ∧
    (rootOf scenario2Tree).map TreeNode.id = some "main" ∧
    getVisibleNodesIterative 10 scenario2Tree collapseAllSet =
      some ["main", "main.1"] ∧
    ("main.1" ∈ (["main", "main.1"] : SSet) ∧ "main.1" ≠ "main") := by
  refine ⟨by decide, by decide, by decide, by decide, by decide⟩

/-- C1 (amended): after collapseAll(), whose returned expanded set is the
literal singleton of the id main, a terminating computeVisible on a tree
with distinct keys and a root contains exactly the root id together with
the root's stored children when the root id is main (the root itself stays
expanded), and exactly the root id alone otherwise. -/
theorem collapseAll_visible_eq (fuel : Nat) (tree : Tree) (V : SSet)
    (rt : TreeNode) (hnd : (idsOf tree).Nodup) (hr : rootOf tree = some rt)
    (h : getVisibleNodesIterative fuel tree collapseAllSet = some V) :
    ∀ x, x ∈ V ↔ (x = rt.id ∨ (rt.id = "main" ∧ x ∈ rt.children)) := by
  intro x
  rw [iterative_eq_reach hr h]
  constructor
  · intro hx
    induction hx with
    | root => exact Or.inl rfl
    | step hp hS hlk hc ihp =>
      rename_i p c node
      have hpm : p = "main" := by simpa [collapseAllSet] using hS
      have hrm : rt.id = "main" := by
        rcases ihp with h1 | h1
        · rw [← h1]
          exact hpm
        · exact h1.1
      have hprt : p = rt.id := by rw [hpm, hrm]
      have hlk2 : lookup tree p = some rt := by
        rw [hprt]
        exact lookup_self hnd (rootOf_mem hr)
      rw [hlk] at hlk2
      have hnode : node = rt := Option.some.inj hlk2
      exact Or.inr ⟨hrm, hnode ▸ hc⟩
  · intro hx
    rcases hx with rfl | ⟨hrm, hc⟩
    · exact Reach.root
    · refine Reach.step Reach.root ?_ (lookup_self hnd (rootOf_mem hr)) hc
      rw [hrm]
      simp [collapseAllSet]

/-- C1 witness: the amended statement evaluated on the Scenario 2 tree at
the child main.1. -/
theorem collapseAll_visible_eq_witness :
    "main.1" ∈ (["main", "main.1"] : SSet) ↔
      ("main.1" = scenario2Root.id ∨
        (scenario2Root.id = "main" ∧ "main.1" ∈ scenario2Root.children)) :=
  collapseAll_visible_eq 10 scenario2Tree ["main", "main.1"] scenario2Root
    (by decide) (by decide) (by decide) "main.1"

/-- C2 counterexample: in the tree built from gatingRecords, with root and q
expanded but p collapsed, c is visible (reached through q) although c is not
the root and the parentId of c, namely p, is not in the expanded set. -/
theorem visible_gating_cex :
    buildTree gatingRecords = some gatingTree ∧
    getVisibleNodesIterative 20 gatingTree gatingExpanded = some gatingVisible ∧
    "c" ∈ gatingVisible ∧
    (rootOf gatingTree).map TreeNode.id = some "root" ∧
    "c" ≠ "root" ∧
    (lookup gatingTree "c").map TreeNode.parentId = some (some "p") ∧
    "p" ∈ gatingVisible ∧
    "p" ∉ gatingExpanded := by
  refine ⟨by decide, by decide, by decide, by decide, by decide, by decide,
    by decide, by decide⟩

/-- C2 (amended): every id of a terminating computeVisible run is the root
id or is a stored child of some id that is itself visible and expanded (not
necessarily its own parentId: a node may be reached through a child edge
added by a later chain). -/
theorem visible_gating (fuel : Nat) (tree : Tree) (S V : SSet)
    (rt : TreeNode) (hr : rootOf tree = some rt)
    (h : getVisibleNodesIterative fuel tree S = some V) :
    ∀ n ∈ V, n = rt.id ∨
      ∃ p node, p ∈ V ∧ p ∈ S ∧ lookup tree p = some node ∧ n ∈ node.children := by
  intro n hn
  have hreach := (iterative_eq_reach hr h n).mp hn
  cases hreach with
  | root => exact Or.inl rfl
  | step hp hS hlk hc =>
    rename_i p node
    exact Or.inr ⟨p, node, (iterative_eq_reach hr h p).mpr hp, hS, hlk, hc⟩

/-- C2 witness: the amended gating property evaluated at the visible node c
of the gating example. -/
theorem visible_gating_witness :
    "c" = gatingRoot.id ∨
      ∃ p node, p ∈ gatingVisible ∧ p ∈ gatingExpanded ∧
        lookup gatingTree p = some node ∧ "c" ∈ node.children :=
  visible_gating 20 gatingTree gatingExpanded gatingVisible gatingRoot
    (by decide) (by decide) "c" (by decide)

/-- C9: a terminating computeVisible under the expanded set of expandAll()
contains every terminating computeVisible under any expanded subset of the
node ids. -/
theorem expandAll_visible_superset (fuel1 fuel2 : Nat) (tree : Tree)
    (S V W : SSet)
    (hS : ∀ s ∈ S, s ∈ idsOf tree)
    (h1 : getVisibleNodesIterative fuel1 tree S = some V)
    (h2 : getVisibleNodesIterative fuel2 tree (expandAllSet tree) = some W) :
    V ⊆ W := by
  cases hr : rootOf tree with
  | none =>
    unfold getVisibleNodesIterative at h1
    rw [hr] at h1
    injection h1 with h1
    rw [← h1]
    exact List.nil_subset _
  | some rt =>
    intro x hx
    have hsub : S ⊆ expandAllSet tree := by
      intro s hs
      exact hS s hs
    exact (iterative_eq_reach hr h2 x).mpr
      (reach_mono hsub ((iterative_eq_reach hr h1 x).mp hx))

/-- C9 witness: monotonicity evaluated on the Scenario 2 tree with the
subset opening only main, applied to the member main.1. -/
theorem expandAll_visible_superset_witness :
    "main.1" ∈ (["main", "main.1"] : SSet) :=
  expandAll_visible_superset 10 10 scenario2Tree ["main"]
    ["main", "main.1"] ["main", "main.1"] (by decide) (by decide) (by decide)
    (by decide)

/-- C10: whenever both the recursive traversal of App.jsx and the iterative
queue traversal of part_000 terminate on the same tree and expanded set,
they return the same set of ids. -/
theorem recursive_iterative_agree (fuel1 fuel2 : Nat) (tree : Tree)
    (S V W : SSet)
    (h1 : getVisibleNodes fuel1 tree S = some V)
    (h2 : getVisibleNodesIterative fuel2 tree S = some W) :
    ∀ x, x ∈ V ↔ x ∈ W := by
  cases hr : rootOf tree with
  | none =>
    unfold getVisibleNodes at h1
    unfold getVisibleNodesIterative at h2
    rw [hr] at h1 h2
    injection h1 with h1
    injection h2 with h2
    rw [← h1, ← h2]
    exact fun x => Iff.rfl
  | some rt =>
    intro x
    rw [recursive_eq_reach hr h1 x, iterative_eq_reach hr h2 x]

/-- C10 witness: the two traversals evaluated on the gating example, at the
deepest id c. -/
theorem recursive_iterative_agree_witness :
    "c" ∈ gatingVisible ↔ "c" ∈ gatingVisible :=
  recursive_iterative_agree 20 20 gatingTree gatingExpanded
    gatingVisible gatingVisible (by decide) (by decide) "c"

end VisibilityClaims

section BuildLemmas

/-- The build pass preserves existing nodes: an id present in the earlier
tree is still present, with the same level and parentId and with a children
list that has only grown at the end. -/
def TreePres (t t' : Tree) : Prop :=
  ∀ id n, lookup t id = some n → ∃ n', lookup t' id = some n' ∧
    n'.level = n.level ∧ n'.parentId = n.parentId ∧
    ∃ tail, n'.children = n.children ++ tail

lemma treePres_refl {t : Tree} : TreePres t t := by
  intro id n h
  exact ⟨n, h, rfl, rfl, [], by simp⟩

lemma treePres_trans {t1 t2 t3 : Tree} (h12 : TreePres t1 t2)
    (h23 : TreePres t2 t3) : TreePres t1 t3 := by
  intro id n h
  obtain ⟨n2, hl2, he2, hp2, tl2, hc2⟩ := h12 id n h
  obtain ⟨n3, hl3, he3, hp3, tl3, hc3⟩ := h23 id n2 hl2
  refine ⟨n3, hl3, he3.trans he2, hp3.trans hp2, tl2 ++ tl3, ?_⟩
  rw [hc3, hc2, List.append_assoc]

/-- Appending new entries to the tree object does not change lookups that
already succeed. -/
lemma lookup_append_of_some {t : Tree} {l : List TreeNode} {id : String}
    {n : TreeNode} (h : lookup t id = some n) : lookup (t ++ l) id = some n := by
  unfold lookup at h ⊢
  rw [List.find?_append, h]
  rfl

lemma addChild_id (n : TreeNode) (cur : String) : (addChild n cur).id = n.id := by
  unfold addChild
  by_cases h : cur ∈ n.children
  · rw [if_pos h]
  · rw [if_neg h]

lemma addChild_level (n : TreeNode) (cur : String) :
    (addChild n cur).level = n.level := by
  unfold addChild
  by_cases h : cur ∈ n.children
  · rw [if_pos h]
  · rw [if_neg h]

lemma addChild_parentId (n : TreeNode) (cur : String) :
    (addChild n cur).parentId = n.parentId := by
  unfold addChild
  by_cases h : cur ∈ n.children
  · rw [if_pos h]
  · rw [if_neg h]

lemma addChild_children (n : TreeNode) (cur : String) :
    ∃ tail, (addChild n cur).children = n.children ++ tail := by
  unfold addChild
  by_cases h : cur ∈ n.children
  · rw [if_pos h]
    exact ⟨[], by simp⟩
  · rw [if_neg h]
    exact ⟨[cur], rfl⟩

/-- Lookup at a cons whose head key matches. -/
lemma lookup_cons_pos {m : TreeNode} {rest : Tree} {id : String}
    (h : (m.id == id) = true) : lookup (m :: rest) id = some m := by
  simp [lookup, List.find?, h]

/-- Lookup at a cons whose head key differs. -/
lemma lookup_cons_neg {m : TreeNode} {rest : Tree} {id : String}
    (h : (m.id == id) = false) : lookup (m :: rest) id = lookup rest id := by
  simp [lookup, List.find?, h]

/-- Mutating one entry by pushing a child preserves all lookups in the
TreePres sense. -/
lemma treePres_updateNode_addChild {t : Tree} {pid cur : String} :
    TreePres t (updateNode t pid (fun m => addChild m cur)) := by
  induction t with
  | nil => exact treePres_refl
  | cons m rest ih =>
    intro id n h
    simp only [updateNode]
    by_cases hmp : m.id == pid
    · rw [if_pos hmp]
      by_cases hmi : (m.id == id) = true
      · have hn : n = m := by
          rw [lookup_cons_pos hmi] at h
          exact (Option.some.inj h).symm
        refine ⟨addChild m cur, ?_, ?_, ?_, ?_⟩
        · exact lookup_cons_pos (by rw [addChild_id]; exact hmi)
        · rw [addChild_level, hn]
        · rw [addChild_parentId, hn]
        · rw [hn]
          exact addChild_children m cur
      · have hmif : (m.id == id) = false := by simpa using hmi
        have hlr : lookup rest id = some n := by
          rw [lookup_cons_neg hmif] at h
          exact h
        refine ⟨n, ?_, rfl, rfl, [], by simp⟩
        rw [lookup_cons_neg (by rw [addChild_id]; exact hmif)]
        exact hlr
    · rw [if_neg hmp]
      by_cases hmi : (m.id == id) = true
      · have hn : n = m := by
          rw [lookup_cons_pos hmi] at h
          exact (Option.some.inj h).symm
        refine ⟨m, ?_, by rw [hn], by rw [hn], [], by rw [hn]; simp⟩
        exact lookup_cons_pos hmi
      · have hmif : (m.id == id) = false := by simpa using hmi
        have hlr : lookup rest id = some n := by
          rw [lookup_cons_neg hmif] at h
          exact h
        obtain ⟨n2, hl2, he2, hp2, tl2, hc2⟩ := ih id n hlr
        refine ⟨n2, ?_, he2, hp2, tl2, hc2⟩
        rw [lookup_cons_neg hmif]
        exact hl2

lemma treePres_createIfAbsent {info : List (String × String × String)}
    {t : Tree} {cur : String} {idx : Nat} {prev : Option String} :
    TreePres t (createIfAbsent info t cur idx prev) := by
  unfold createIfAbsent
  cases lookup t cur with
  | some _ => exact treePres_refl
  | none =>
    intro id n h
    exact ⟨n, lookup_append_of_some h, rfl, rfl, [], by simp⟩

lemma treePres_linkChild {t : Tree} {prev : Option String} {cur : String} :
    TreePres t (linkChild t prev cur) := by
  cases prev with
  | none =>
    simp only [linkChild]
    exact treePres_refl
  | some pid =>
    simp only [linkChild]
    by_cases hp : pid ≠ ""
    · rw [if_pos hp]
      exact treePres_updateNode_addChild
    · rw [if_neg hp]
      exact treePres_refl

lemma treePres_processChainAux {info : List (String × String × String)} :
    ∀ (chain : List String) (t : Tree) (prev : Option String) (idx : Nat),
    TreePres t (processChainAux info t prev idx chain) := by
  intro chain
  induction chain with
  | nil => intro t prev idx; exact treePres_refl
  | cons cur rest ih =>
    intro t prev idx
    simp only [processChainAux]
    exact treePres_trans (treePres_trans treePres_createIfAbsent treePres_linkChild) (ih _ _ _)

lemma treePres_processRecord {info : List (String × String × String)}
    {t t' : Tree} {r : RawRecord} (h : processRecord info t r = some t') :
    TreePres t t' := by
  unfold processRecord at h
  cases hp : r.parent with
  | none => rw [hp] at h; exact absurd h (by simp)
  | some pm =>
    rw [hp] at h
    have ht : processChainAux info t none 0 (chainOf pm) = t' := Option.some.inj h
    rw [← ht]
    exact treePres_processChainAux _ _ _ _

lemma treePres_processRecords {info : List (String × String × String)} :
    ∀ (rs : List RawRecord) (t t' : Tree),
    processRecords info rs t = some t' → TreePres t t' := by
  intro rs
  induction rs with
  | nil =>
    intro t t' h
    unfold processRecords at h
    rw [List.foldlM_nil] at h
    have : t = t' := Option.some.inj h
    rw [← this]
    exact treePres_refl
  | cons r rest ih =>
    intro t t' h
    unfold processRecords at h
    rw [List.foldlM_cons] at h
    cases hr : processRecord info t r with
    | none => rw [hr] at h; exact absurd h (by simp)
    | some t1 =>
      rw [hr] at h
      simp only [Option.bind_eq_bind, Option.some_bind] at h
      exact treePres_trans (treePres_processRecord hr) (ih t1 t' h)

end BuildLemmas

section BuildClaims

/-- C4: first-writer-wins. If processing a prefix of the record list (under
the metadata of the full list) has created a node, then the fully built
tree still holds that id with the same level and parentId, its children
list only extended at the end by later chains. -/
theorem build_first_writer_wins (rs1 rs2 : List RawRecord) (t1 t : Tree)
    (id : String) (n : TreeNode)
    (h1 : processRecords (collectInfo (rs1 ++ rs2)) rs1 [] = some t1)
    (h2 : buildTree (rs1 ++ rs2) = some t)
    (hn : lookup t1 id = some n) :
    ∃ n', lookup t id = some n' ∧ n'.level = n.level ∧
      n'.parentId = n.parentId ∧ ∃ tail, n'.children = n.children ++ tail := by
  unfold buildTree processRecords at h2
  rw [List.foldlM_append] at h2
  unfold processRecords at h1
  rw [h1] at h2
  simp only [Option.bind_eq_bind, Option.some_bind] at h2
  exact treePres_processRecords rs2 t1 t h2 id n hn

/-- The tree after the first first-writer-wins example chain a, b. -/
def fwwTree1 : Tree :=
  [⟨"a", "Node a", "Description for a", 0, none, ["b"]⟩,
   ⟨"b", "Node b", "Description for b", 1, some "a", []⟩]

/-- The tree after also processing the conflicting chain a, x, b: the level
and parentId of b are unchanged, a only gained the child x. -/
def fwwTree2 : Tree :=
  [⟨"a", "Node a", "Description for a", 0, none, ["b", "x"]⟩,
   ⟨"b", "Node b", "Description for b", 1, some "a", []⟩,
   ⟨"x", "Node x", "Description for x", 1, some "a", ["b"]⟩]

/-- The two first-writer-wins example records: the second chain mentions b
again at a different depth. -/
def fwwRecords1 : List RawRecord :=
  [⟨"r1", "R1", "d1", some [("level-0", "a"), ("level-1", "b")]⟩]

/-- The later record whose chain a, x, b re-mentions a and b. -/
def fwwRecords2 : List RawRecord :=
  [⟨"r2", "R2", "d2", some [("level-0", "a"), ("level-1", "x"), ("level-2", "b")]⟩]

/-- C4 witness: the prefix tree of the first chain and the full tree, at the
re-mentioned id a (children extended by x, level and parentId intact). -/
theorem build_first_writer_wins_witness :
    ∃ n', lookup fwwTree2 "a" = some n' ∧
      n'.level = (⟨"a", "Node a", "Description for a", 0, none, ["b"]⟩ : TreeNode).level ∧
      n'.parentId = (⟨"a", "Node a", "Description for a", 0, none, ["b"]⟩ : TreeNode).parentId ∧
      ∃ tail, n'.children =
        (⟨"a", "Node a", "Description for a", 0, none, ["b"]⟩ : TreeNode).children ++ tail :=
  build_first_writer_wins fwwRecords1 fwwRecords2 fwwTree1 fwwTree2 "a"
    ⟨"a", "Node a", "Description for a", 0, none, ["b"]⟩
    (by decide) (by decide) (by decide)

/-- C7 counterexample: a record whose parent mapping is entirely missing
makes buildTree throw (Object.keys(undefined)), it is not silently
skipped. -/
theorem missingParent_fails :
    buildTree [⟨"a", "n", "d", none⟩] = none := by decide

/-- A record of one of the build passes is skipped when its parent mapping
is the empty object: it contributes no chain at all. -/
lemma processRecord_empty {info : List (String × String × String)}
    {t : Tree} {r : RawRecord} (hp : r.parent = some []) :
    processRecord info t r = some t := by
  unfold processRecord
  rw [hp]
  rfl

/-- C7 (amended): a record with an empty (but present) parent mapping
contributes no chain: the second pass over any record list containing it
equals the pass over the list without it, from any starting tree and with
any metadata map. A record with a missing parent mapping instead aborts the
build with a TypeError. -/
theorem emptyParent_skipped (info : List (String × String × String))
    (r : RawRecord) (rs1 rs2 : List RawRecord) (t0 : Tree)
    (hp : r.parent = some []) :
    processRecords info (rs1 ++ r :: rs2) t0 = processRecords info (rs1 ++ rs2) t0 := by
  unfold processRecords
  rw [List.foldlM_append, List.foldlM_append]
  have hmid : ∀ t : Tree,
      List.foldlM (fun acc x => processRecord info acc x) t (r :: rs2) =
      List.foldlM (fun acc x => processRecord info acc x) t rs2 := by
    intro t
    rw [List.foldlM_cons, processRecord_empty hp]
    simp
  simp only [hmid]

/-- C7 witness: skipping an empty-parent record in the middle of the
Scenario 2 records leaves the pass result unchanged. -/
theorem emptyParent_skipped_witness :
    processRecords (collectInfo scenario2Records)
        ([exMain1] ++ (⟨"e", "E", "de", some []⟩ : RawRecord) :: [exMain2]) [] =
      processRecords (collectInfo scenario2Records) ([exMain1] ++ [exMain2]) [] :=
  emptyParent_skipped (collectInfo scenario2Records) ⟨"e", "E", "de", some []⟩
    [exMain1] [exMain2] [] (by decide)

end BuildClaims

section LayoutLemmas

variable {α : Type}

/-- An association lookup that succeeds on the left part of an appended map
succeeds unchanged on the whole. -/
lemma lookupAssoc_append_left {m1 m2 : List (String × α)} {k : String} {v : α}
    (h : lookupAssoc m1 k = some v) : lookupAssoc (m1 ++ m2) k = some v := by
  induction m1 with
  | nil => simp [lookupAssoc] at h
  | cons e rest ih =>
    simp only [lookupAssoc] at h ⊢
    by_cases he : e.1 == k
    · rw [if_pos he] at h ⊢
      exact h
    · rw [if_neg he] at h ⊢
      exact ih h

/-- An association lookup skips a left part that lacks the key. -/
lemma lookupAssoc_append_right {m1 m2 : List (String × α)} {k : String}
    (h : k ∉ m1.map Prod.fst) : lookupAssoc (m1 ++ m2) k = lookupAssoc m2 k := by
  induction m1 with
  | nil => rfl
  | cons e rest ih =>
    simp only [List.map_cons, List.mem_cons] at h
    push_neg at h
    simp only [List.cons_append, lookupAssoc]
    rw [if_neg (by simpa using (Ne.symm h.1))]
    exact ih h.2

/-- An association lookup on a present key succeeds. -/
lemma lookupAssoc_isSome_of_mem_keys {m : List (String × α)} {k : String}
    (h : k ∈ m.map Prod.fst) : (lookupAssoc m k).isSome := by
  induction m with
  | nil => simp at h
  | cons e rest ih =>
    simp only [lookupAssoc]
    by_cases he : e.1 == k
    · rw [if_pos he]
      rfl
    · rw [if_neg he]
      simp only [List.map_cons, List.mem_cons] at h
      rcases h with h | h
      · exact absurd (by simp [h]) he
      · exact ih h

/-- The keys of one level row are exactly its ids. -/
lemma rowsFrom_keys (f : Nat → Int × Int) :
    ∀ (i : Nat) (ids : List String), (rowsFrom f i ids).map Prod.fst = ids := by
  intro i ids
  induction ids generalizing i with
  | nil => rfl
  | cons id rest ih => simp [rowsFrom, ih]

/-- Looking up the j-th id of a duplicate-free level row returns the
position computed from its index. -/
lemma rowsFrom_lookup (f : Nat → Int × Int) :
    ∀ (ids : List String) (i0 j : Nat) (id : String), ids.Nodup →
    ids.get? j = some id →
    lookupAssoc (rowsFrom f i0 ids) id = some (f (i0 + j)) := by
  intro ids
  induction ids with
  | nil => intro i0 j id _ hj; simp at hj
  | cons y rest ih =>
    intro i0 j id hnd hj
    cases j with
    | zero =>
      rw [List.get?_cons_zero] at hj
      have hy : y = id := Option.some.inj hj
      simp only [rowsFrom, lookupAssoc]
      rw [if_pos (by simp [hy])]
      rw [Nat.add_zero]
    | succ j =>
      rw [List.get?_cons_succ] at hj
      have hidr : id ∈ rest := List.get?_mem hj
      have hyne : y ≠ id := by
        intro he
        exact (List.nodup_cons.mp hnd).1 (he ▸ hidr)
      simp only [rowsFrom, lookupAssoc]
      rw [if_neg (by simpa using hyne)]
      rw [ih (i0 + 1) j id (List.nodup_cons.mp hnd).2 hj]
      rw [Nat.add_assoc, Nat.add_comm 1 j]

/-- One level segment of the layout list. -/
def layoutSegment (tree : Tree) (l : Nat) : List (String × (Int × Int)) :=
  rowsFrom (fun i => posOfIndex (sortedLevelIds tree l).length i l) 0
    (sortedLevelIds tree l)

lemma calculateLayout_eq_flatMap (tree : Tree) :
    calculateLayout tree = (levelsOf tree).flatMap (layoutSegment tree) := rfl

/-- Finding a key through the per-level concatenation when it occurs in one
segment and nowhere else. -/
lemma lookupAssoc_flatMap {seg : Nat → List (String × (Int × Int))}
    {id : String} {v : Int × Int} (l : Nat) :
    ∀ ls : List Nat, l ∈ ls → lookupAssoc (seg l) id = some v →
    (∀ l' ∈ ls, l' ≠ l → id ∉ (seg l').map Prod.fst) →
    lookupAssoc (ls.flatMap seg) id = some v := by
  intro ls
  induction ls with
  | nil => intro h; simp at h
  | cons l0 rest ih =>
    intro hl hseg hdisj
    simp only [List.flatMap_cons]
    by_cases hl0 : l0 = l
    · rw [hl0]
      exact lookupAssoc_append_left hseg
    · rw [lookupAssoc_append_right
        (hdisj l0 (List.mem_cons_self _ _) hl0)]
      have hlr : l ∈ rest := by
        rcases List.mem_cons.mp hl with he | hr
        · exact absurd he.symm hl0
        · exact hr
      exact ih hlr hseg (fun l' hl' => hdisj l' (List.mem_cons_of_mem _ hl'))

/-- Every member of a level id list comes from a member node at that
level. -/
lemma of_mem_levelIds {tree : Tree} {l : Nat} {id : String}
    (h : id ∈ levelIds tree l) : ∃ n ∈ tree, n.id = id ∧ n.level = l := by
  unfold levelIds at h
  obtain ⟨n, hn, hid⟩ := List.mem_map.mp h
  have hmem := List.mem_of_mem_filter hn
  have hlev := List.of_mem_filter hn
  exact ⟨n, hmem, hid, by simpa using hlev⟩

/-- A member node's id is in its level id list. -/
lemma mem_levelIds_of_mem {tree : Tree} {n : TreeNode} (hn : n ∈ tree) :
    n.id ∈ levelIds tree n.level := by
  unfold levelIds
  exact List.mem_map_of_mem _ (List.mem_filter.mpr ⟨hn, by simp⟩)

/-- A member node's level appears among the layout levels. -/
lemma mem_levelsOf_of_mem {tree : Tree} {n : TreeNode} (hn : n ∈ tree) :
    n.level ∈ levelsOf tree := by
  unfold levelsOf
  rw [mem_stableSort]
  rw [List.mem_dedup]
  exact List.mem_map_of_mem _ hn

/-- With distinct keys, the id lists of the levels are duplicate-free. -/
lemma levelIds_nodup {tree : Tree} (hnd : (idsOf tree).Nodup) (l : Nat) :
    (levelIds tree l).Nodup :=
  List.Nodup.sublist (List.Sublist.map _ (List.filter_sublist tree)) hnd

/-- The central layout lemma: with distinct keys, the position stored for
the j-th id of the sorted id list of level l is exactly the grid position of
index j in that level. -/
lemma calculateLayout_lookup {tree : Tree} (hnd : (idsOf tree).Nodup)
    {l j : Nat} {id : String}
    (hj : (sortedLevelIds tree l).get? j = some id) :
    lookupAssoc (calculateLayout tree) id =
      some (posOfIndex (sortedLevelIds tree l).length j l) := by
  have hmem : id ∈ sortedLevelIds tree l := List.get?_mem hj
  have hmeml : id ∈ levelIds tree l := mem_stableSort.mp hmem
  obtain ⟨n, hn, hnid, hnlev⟩ := of_mem_levelIds hmeml
  rw [calculateLayout_eq_flatMap]
  refine lookupAssoc_flatMap l (levelsOf tree) ?_ ?_ ?_
  · rw [← hnlev]
    exact mem_levelsOf_of_mem hn
  · unfold layoutSegment
    have := rowsFrom_lookup (fun i => posOfIndex (sortedLevelIds tree l).length i l)
      (sortedLevelIds tree l) 0 j id
      (stableSort_nodup (levelIds_nodup hnd l)) hj
    simpa using this
  · intro l' _ hne
    unfold layoutSegment
    rw [rowsFrom_keys]
    intro hmem'
    obtain ⟨m, hm, hmid, hmlev⟩ := of_mem_levelIds (mem_stableSort.mp hmem')
    have heq : m = n := eq_of_mem_of_id_eq hnd hm hn (hmid.trans hnid.symm)
    exact hne ((hmlev.symm.trans (heq ▸ rfl : m.level = n.level)).trans hnlev)

end LayoutLemmas

section LayoutClaims

/-- The records building a tree whose level-1 creation order is b then a. -/
def layoutRecords : List RawRecord :=
  [⟨"u", "U", "du", some [("level-0", "r"), ("level-1", "b")]⟩,
   ⟨"v", "V", "dv", some [("level-0", "r"), ("level-1", "a")]⟩]

/-- The tree buildTree produces for layoutRecords: creation order r, b, a. -/
def layoutTree : Tree :=
  [⟨"r", "Node r", "Description for r", 0, none, ["b", "a"]⟩,
   ⟨"b", "Node b", "Description for b", 1, some "r", []⟩,
   ⟨"a", "Node a", "Description for a", 1, some "r", []⟩]

/-- C3 counterexample: in the tree built from layoutRecords the level-1
creation order is b then a, so the claim places b (node index 0 of 2) at
x = -55; calculateLayout instead sorts the ids lexicographically and places
b at x = 55. -/
theorem layout_creation_order_cex :
    buildTree layoutRecords = some layoutTree ∧
    levelIds layoutTree 1 = ["b", "a"] ∧
    lookupAssoc (calculateLayout layoutTree) "b" = some (55, 100) ∧
    some ((55 : Int), (100 : Int)) ≠ some ((-55 : Int), (100 : Int)) := by
  refine ⟨by decide, by decide, by decide, by decide⟩

/-- C3 (amended): within each level, layout orders the ids lexicographically
ascending by id string (the JS default sort), not by creation order; the
sorted list is a permutation of the level's creation-order ids, and the id
at sorted index i of a level of n ids is placed at
x = -(n-1)*110/2 + i*110, y = level*100. -/
theorem layout_positions (tree : Tree) (l j : Nat) (id : String)
    (hnd : (idsOf tree).Nodup)
    (hj : (sortedLevelIds tree l).get? j = some id) :
    List.Pairwise (fun a b => strLeB a b = true) (sortedLevelIds tree l) ∧
    (sortedLevelIds tree l).Perm (levelIds tree l) ∧
    lookupAssoc (calculateLayout tree) id =
      some (posOfIndex (sortedLevelIds tree l).length j l) := by
  refine ⟨?_, ?_, ?_⟩
  · exact pairwise_stableSort strLeB_trans strLeB_total _
  · exact stableSort_perm _
  · exact calculateLayout_lookup hnd hj

/-- C3 witness: the amended statement evaluated on layoutTree at level 1,
sorted index 1 (the id b, placed at x = 55, y = 100). -/
theorem layout_positions_witness :
    List.Pairwise (fun a b => strLeB a b = true) (sortedLevelIds layoutTree 1) ∧
    (sortedLevelIds layoutTree 1).Perm (levelIds layoutTree 1) ∧
    lookupAssoc (calculateLayout layoutTree) "b" =
      some (posOfIndex (sortedLevelIds layoutTree 1).length 1 1) :=
  layout_positions layoutTree 1 1 "b" (by decide) (by decide)

/-- Materialising an empty visible set yields empty node and edge lists. -/
lemma materialize_empty_visible (S : SSet) (pos : List (String × (Int × Int))) :
    ∀ tl : List TreeNode, materialize S [] pos tl = ([], []) := by
  intro tl
  induction tl with
  | nil => rfl
  | cons n rest ih =>
    simp only [materialize, ih]
    rw [if_neg (List.not_mem_nil n.id)]

/-- A one-node tree whose only node sits at level 1: no root exists. -/
def rootlessTree : Tree := [⟨"b", "B", "db", 1, none, []⟩]

/-- C8 counterexample: on a rootless tree the layout is not empty —
calculateLayout ignores the root entirely and still positions the level-1
node. -/
theorem rootless_layout_cex :
    rootOf rootlessTree = none ∧
    calculateLayout rootlessTree = [("b", (0, 100))] ∧
    calculateLayout rootlessTree ≠ [] := by
  refine ⟨by decide, by decide, by decide⟩

/-- C8 (amended): on a tree with no level-0 node, computeVisible returns the
empty set and the materializer produces empty node and edge lists, with no
exception in either; calculateLayout however ignores the presence of a root
and assigns a position to every node, so its result is empty only for the
empty tree. -/
theorem rootless_behavior (fuel : Nat) (tree : Tree) (S : SSet)
    (pos : List (String × (Int × Int)))
    (h0 : ∀ n ∈ tree, n.level ≠ 0) :
    getVisibleNodesIterative fuel tree S = some [] ∧
    rebuildTree fuel tree S pos = some ([], []) ∧
    ∀ n ∈ tree, (lookupAssoc (calculateLayout tree) n.id).isSome := by
  have hroot : rootOf tree = none := by
    unfold rootOf
    rw [List.find?_eq_none]
    intro n hn
    simpa using h0 n hn
  refine ⟨?_, ?_, ?_⟩
  · unfold getVisibleNodesIterative
    rw [hroot]
  · unfold rebuildTree getVisibleNodesIterative
    rw [hroot]
    have hm : materialize S [] pos tree = ([], []) :=
      materialize_empty_visible S pos tree
    simp [hm]
  · intro n hn
    apply lookupAssoc_isSome_of_mem_keys
    rw [calculateLayout_eq_flatMap, List.map_flatMap]
    refine List.mem_flatMap.mpr ⟨n.level, mem_levelsOf_of_mem hn, ?_⟩
    unfold layoutSegment
    rw [rowsFrom_keys]
    exact mem_stableSort.mpr (mem_levelIds_of_mem hn)

/-- C8 witness: the amended statement evaluated on the rootless one-node
tree. -/
theorem rootless_behavior_witness :
    getVisibleNodesIterative 5 rootlessTree ["b"] = some [] ∧
    rebuildTree 5 rootlessTree ["b"] [] = some ([], []) ∧
    ∀ n ∈ rootlessTree, (lookupAssoc (calculateLayout rootlessTree) n.id).isSome :=
  rootless_behavior 5 rootlessTree ["b"] [] (by decide)

end LayoutClaims

section MaterializeLemmas

variable {S V : SSet} {pos : List (String × (Int × Int))}

/-- The node-descriptor list materialised from a tree list has one entry per
visible member, in order. -/
lemma materialize_nodes_length :
    ∀ tl : List TreeNode, (materialize S V pos tl).1.length =
      ((idsOf tl).filter (fun i => decide (i ∈ V))).length := by
  intro tl
  induction tl with
  | nil => rfl
  | cons n rest ih =>
    simp only [materialize, idsOf, List.map_cons, List.filter_cons]
    by_cases hn : n.id ∈ V
    · rw [if_pos hn, if_pos (by simpa using hn)]
      simp only [List.length_cons]
      rw [ih]
      rfl
    · rw [if_neg hn, if_neg (by simpa using hn)]
      exact ih

/-- The ids of the materialised node descriptors are exactly the tree keys
that are visible. -/
lemma mem_materialize_ids :
    ∀ (tl : List TreeNode) (x : String),
      x ∈ (materialize S V pos tl).1.map NodeDesc.id ↔
        (x ∈ idsOf tl ∧ x ∈ V) := by
  intro tl
  induction tl with
  | nil => intro x; simp [materialize, idsOf]
  | cons n rest ih =>
    intro x
    simp only [materialize, idsOf, List.map_cons]
    by_cases hn : n.id ∈ V
    · rw [if_pos hn]
      simp only [List.map_cons, List.mem_cons, descOf]
      constructor
      · intro hx
        rcases hx with hx | hx
        · exact ⟨Or.inl hx, hx ▸ hn⟩
        · obtain ⟨h1, h2⟩ := (ih x).mp hx
          exact ⟨Or.inr h1, h2⟩
      · intro ⟨h1, h2⟩
        rcases h1 with h1 | h1
        · exact Or.inl h1
        · exact Or.inr ((ih x).mpr ⟨h1, h2⟩)
    · rw [if_neg hn]
      rw [ih x]
      constructor
      · intro ⟨h1, h2⟩
        exact ⟨List.mem_cons_of_mem _ h1, h2⟩
      · intro ⟨h1, h2⟩
        rcases List.mem_cons.mp h1 with rfl | h1
        · exact absurd h2 hn
        · exact ⟨h1, h2⟩

/-- Every materialised edge stems from a visible member node. -/
lemma materialize_edges_mem {e : EdgeDesc} :
    ∀ tl : List TreeNode, e ∈ (materialize S V pos tl).2 →
      ∃ n ∈ tl, n.id ∈ V ∧ e ∈ edgesFor V n := by
  intro tl
  induction tl with
  | nil => intro h; simp [materialize] at h
  | cons n rest ih =>
    intro h
    simp only [materialize] at h
    by_cases hn : n.id ∈ V
    · rw [if_pos hn] at h
      simp only [List.mem_append] at h
      rcases h with h | h
      · exact ⟨n, List.mem_cons_self _ _, hn, h⟩
      · obtain ⟨m, hm, hmv, hme⟩ := ih h
        exact ⟨m, List.mem_cons_of_mem _ hm, hmv, hme⟩
    · rw [if_neg hn] at h
      obtain ⟨m, hm, hmv, hme⟩ := ih h
      exact ⟨m, List.mem_cons_of_mem _ hm, hmv, hme⟩

/-- Inversion of the per-node edge push: the edge runs from the node's
truthy, visible parentId to the node itself. -/
lemma edgesFor_inv {n : TreeNode} {e : EdgeDesc} (h : e ∈ edgesFor V n) :
    ∃ pid, n.parentId = some pid ∧ pid ≠ "" ∧ pid ∈ V ∧
      e.source = pid ∧ e.target = n.id := by
  cases hp : n.parentId with
  | none => simp [edgesFor, hp] at h
  | some pid =>
    simp only [edgesFor, hp] at h
    by_cases hg : pid ≠ "" ∧ pid ∈ V
    · rw [if_pos hg] at h
      rw [List.mem_singleton] at h
      exact ⟨pid, rfl, hg.1, hg.2, by rw [h], by rw [h]⟩
    · rw [if_neg hg] at h
      simp at h

/-- Two duplicate-free string lists with the same members have the same
length; applied to the visible ids among the keys. -/
lemma filter_mem_length {ids V : List String} (hids : ids.Nodup)
    (hV : V.Nodup) (hsub : V ⊆ ids) :
    ((ids.filter (fun i => decide (i ∈ V))).length = V.length) := by
  have hnd : (ids.filter (fun i => decide (i ∈ V))).Nodup :=
    List.Nodup.sublist (List.filter_sublist ids) hids
  have hperm : (ids.filter (fun i => decide (i ∈ V))).Perm V := by
    rw [List.perm_ext_iff_of_nodup hnd hV]
    intro a
    constructor
    · intro ha
      have := List.of_mem_filter ha
      simpa using this
    · intro ha
      exact List.mem_filter.mpr ⟨hsub ha, by simpa using ha⟩
  exact hperm.length_eq

/-- A terminating computeVisible returns a duplicate-free set contained in
the tree keys (for a structurally sane tree). -/
lemma visible_nodup_subset {fuel : Nat} {tree : Tree} {S V : SSet}
    (hwf : wfTree tree)
    (hv : getVisibleNodesIterative fuel tree S = some V) :
    V.Nodup ∧ V ⊆ idsOf tree := by
  cases hr : rootOf tree with
  | none =>
    unfold getVisibleNodesIterative at hv
    rw [hr] at hv
    injection hv with hv
    rw [← hv]
    exact ⟨List.nodup_nil, List.nil_subset _⟩
  | some rt =>
    constructor
    · have hv2 := hv
      unfold getVisibleNodesIterative at hv2
      rw [hr] at hv2
      exact bfsAux_nodup fuel [] [rt.id] V List.nodup_nil hv2
    · intro x hx
      exact reach_subset_ids hwf hr ((iterative_eq_reach hr hv x).mp hx)

end MaterializeLemmas

section MaterializeClaims

/-- C5: for a structurally sane tree (distinct keys, children stored among
the keys — true of every built tree), any expanded set, and any position
map, a terminating rebuild produces a duplicate-free visible set, exactly
one node descriptor per visible id, and only edges whose source and target
ids both appear in the node-descriptor list. -/
theorem rebuild_batch_complete (fuel : Nat) (tree : Tree) (S V : SSet)
    (pos : List (String × (Int × Int))) (ns : List NodeDesc) (es : List EdgeDesc)
    (hwf : wfTree tree)
    (hv : getVisibleNodesIterative fuel tree S = some V)
    (hrb : rebuildTree fuel tree S pos = some (ns, es)) :
    V.Nodup ∧ ns.length = V.length ∧
    ∀ e ∈ es, e.source ∈ ns.map NodeDesc.id ∧ e.target ∈ ns.map NodeDesc.id := by
  unfold rebuildTree at hrb
  rw [hv] at hrb
  simp only [Option.map] at hrb
  have hpair : materialize S V pos tree = (ns, es) := Option.some.inj hrb
  obtain ⟨hnodup, hsub⟩ := visible_nodup_subset hwf hv
  refine ⟨hnodup, ?_, ?_⟩
  · have h1 := @materialize_nodes_length S V pos tree
    rw [hpair] at h1
    rw [h1]
    exact filter_mem_length hwf.1 hnodup hsub
  · intro e he
    have he2 : e ∈ (materialize S V pos tree).2 := by rw [hpair]; exact he
    obtain ⟨n, hn, hnv, hne⟩ := materialize_edges_mem tree he2
    obtain ⟨pid, hppid, hpne, hpv, hsrc, htgt⟩ := edgesFor_inv hne
    constructor
    · have : pid ∈ (materialize S V pos tree).1.map NodeDesc.id :=
        (mem_materialize_ids tree pid).mpr ⟨hsub hpv, hpv⟩
      rw [hpair] at this
      rw [hsrc]
      exact this
    · have : n.id ∈ (materialize S V pos tree).1.map NodeDesc.id :=
        (mem_materialize_ids tree n.id).mpr ⟨List.mem_map_of_mem _ hn, hnv⟩
      rw [hpair] at this
      rw [htgt]
      exact this

/-- C5 witness: the batch-completeness statement evaluated on the Scenario 2
tree with only main expanded. -/
theorem rebuild_batch_complete_witness :
    (["main", "main.1"] : SSet).Nodup ∧
    ([⟨"main", "Main", "dmain", true, true, none⟩,
      ⟨"main.1", "Main 1", "dmain1", false, false, none⟩] : List NodeDesc).length =
      (["main", "main.1"] : SSet).length ∧
    ∀ e ∈ ([⟨"main-main.1", "main", "main.1"⟩] : List EdgeDesc),
      e.source ∈ ([⟨"main", "Main", "dmain", true, true, none⟩,
        ⟨"main.1", "Main 1", "dmain1", false, false, none⟩] : List NodeDesc).map NodeDesc.id ∧
      e.target ∈ ([⟨"main", "Main", "dmain", true, true, none⟩,
        ⟨"main.1", "Main 1", "dmain1", false, false, none⟩] : List NodeDesc).map NodeDesc.id :=
  rebuild_batch_complete 10 scenario2Tree ["main"] ["main", "main.1"] []
    [⟨"main", "Main", "dmain", true, true, none⟩,
     ⟨"main.1", "Main 1", "dmain1", false, false, none⟩]
    [⟨"main-main.1", "main", "main.1"⟩]
    (by decide) (by decide) (by decide)

end MaterializeClaims

section KeyClaims

/-- C6 counterexample: the key level-x (non-numeric suffix, NaN comparator)
does not sort last: the NaN result is treated as a tie, so the stable sort
leaves it in front of level-0, and the extracted chain starts with its
value. -/
theorem nonNumericKey_sort_cex :
    numSuffix "level-x" = none ∧
    sortKeys ["level-x", "level-0"] = ["level-x", "level-0"] ∧
    sortKeys ["level-x", "level-0"] ≠ ["level-0", "level-x"] ∧
    chainOf [("level-x", "a"), ("level-0", "b")] = ["a", "b"] := by
  refine ⟨by decide, by decide, by decide, by decide⟩

/-- C6 (amended): a level-key with a non-numeric or missing suffix makes the
comparator NaN, which Array.prototype.sort treats as 0: the key compares as
a tie with every other key in both directions (so under the stable sort it
keeps its insertion-relative position instead of sorting last), and chain
extraction never raises and keeps one chain entry per parent-mapping
entry. -/
theorem nonNumericKey_ties (k k2 : String) (pm : List (String × String))
    (hk : numSuffix k = none) :
    jsCompareKeys k k2 = 0 ∧ jsCompareKeys k2 k = 0 ∧
    (chainOf pm).length = pm.length := by
  refine ⟨?_, ?_, ?_⟩
  · simp [jsCompareKeys, hk]
  · cases h2 : numSuffix k2 <;> simp [jsCompareKeys, hk, h2]
  · unfold chainOf sortKeys
    rw [List.length_map, stableSort_length, List.length_map]

/-- C6 witness: the tie facts evaluated at the keys level-x and level-0 and
the two-entry parent mapping. -/
theorem nonNumericKey_ties_witness :
    jsCompareKeys "level-x" "level-0" = 0 ∧
    jsCompareKeys "level-0" "level-x" = 0 ∧
    (chainOf [("level-x", "a"), ("level-0", "b")]).length =
      ([("level-x", "a"), ("level-0", "b")] : List (String × String)).length :=
  nonNumericKey_ties "level-x" "level-0" [("level-x", "a"), ("level-0", "b")]
    (by decide)

end KeyClaims

end TenK
